import Mathlib

/-! A shallow embedding of the gitfindr-rs sources (src/main.rs and
src/err/mod.rs): the repository validator `validate_repo`, the iterative
directory walker `parse_directory`, and the alias registry `GitFindrConfig`,
together with theorems about them. -/

namespace GitFindr

/-- Error kinds: the four marker error types of src/err/mod.rs together with
propagated I/O errors, which we model with a numeric code. -/
inductive GFError where
  | notARepository
  | alreadyExists
  | doesNotExist
  | nameExtractFailure
  | ioError (code : Nat)
deriving DecidableEq, Repr

/-- Console output events: each constructor corresponds to one family of
println!/eprintln! occurrences in main.rs. `added` is the success line printed
by `add_repo`; `readDirFail` is the eprintln of the `read_dir` error in
`parse_directory`; `nameExtractFail` is the eprintln of `RepoNameExtractError`
in `parse_directory`; `errReport` is the eprintln of an error value by a
caller in `main`. -/
inductive Msg where
  | added (name : String)
  | readDirFail (code : Nat)
  | nameExtractFail
  | errReport (e : GFError)
deriving DecidableEq, Repr

/-- A filesystem path as its list of components; the last component is the
path's file name. The empty list models a path (such as the filesystem root)
that has no final component. -/
abbrev DirPath := List String

/-- `RepoData` from main.rs: a repository's name and path. -/
structure RepoData where
  name : String
  path : DirPath
deriving DecidableEq, Repr

/-- `RepoData::new` from main.rs. -/
def RepoData.new (name : String) (path : DirPath) : RepoData :=
  { name := name, path := path }

/-- Rust's `Path::file_stem` restricted to a file name `s`: the whole name if
it is `..`, has no dot, or has a dot only at the front; otherwise the portion
of the name before the final dot. -/
def fileStem (s : String) : String :=
  if s = ".." then s
  else
    match s.toList.reverse.dropWhile (fun c => c ≠ '.') with
    | [] => s
    | _ :: rest => if rest = [] then s else String.mk rest.reverse

/-- `Path::file_stem` on a full path: the stem of the last component, or
`none` when the path has no final component. -/
def fileStemPath (p : DirPath) : Option String :=
  p.getLast?.map fileStem

/-- `GitFindrConfig` from main.rs: the registry. The Rust field is a
`HashMap<String, RepoData>`; we model it as an association list whose
well-formed states (the only ones a `HashMap` can represent) have no
duplicate keys. -/
structure GitFindrConfig where
  repos : List (String × RepoData)
deriving DecidableEq, Repr

/-- `HashMap::contains_key`. -/
def containsKey (l : List (String × RepoData)) (k : String) : Bool :=
  l.any (fun kv => kv.1 == k)

/-- `HashMap::insert` (replaces the binding if the key is present, otherwise
adds a new binding). -/
def hmInsert (l : List (String × RepoData)) (k : String) (v : RepoData) :
    List (String × RepoData) :=
  if containsKey l k then l.map (fun kv => if kv.1 == k then (k, v) else kv)
  else l ++ [(k, v)]

/-- `HashMap::remove` (deletes the binding of the key, if any). -/
def hmRemove (l : List (String × RepoData)) (k : String) :
    List (String × RepoData) :=
  l.eraseP (fun kv => kv.1 == k)

/-- `HashMap::get`. -/
def hmGet (l : List (String × RepoData)) (k : String) : Option RepoData :=
  (l.find? (fun kv => kv.1 == k)).map (fun kv => kv.2)

/-- `GitFindrConfig::default` (an empty map). -/
def defaultConfig : GitFindrConfig := { repos := [] }

/-- `GitFindrConfig::add_repo`: fails with `RepoAlreadyExistsError` when the
name is already a key, otherwise prints the "Added ..." line and inserts. The
returned triple is (result, updated registry, console output). -/
def GitFindrConfig.add_repo (c : GitFindrConfig) (repo : RepoData) :
    Except GFError Unit × GitFindrConfig × List Msg :=
  if containsKey c.repos repo.name then
    (.error .alreadyExists, c, [])
  else
    (.ok (), { repos := hmInsert c.repos repo.name repo }, [.added repo.name])

/-- `GitFindrConfig::remove_repo`: fails with `RepoDoesNotExistError` when the
name is absent, otherwise removes the entry. -/
def GitFindrConfig.remove_repo (c : GitFindrConfig) (name : String) :
    Except GFError Unit × GitFindrConfig :=
  if !containsKey c.repos name then
    (.error .doesNotExist, c)
  else
    (.ok (), { repos := hmRemove c.repos name })

/-- `GitFindrConfig::get_repo`. -/
def GitFindrConfig.get_repo (c : GitFindrConfig) (name : String) :
    Option RepoData :=
  hmGet c.repos name

/-- The bulk-add loop in `main` (`for repo in repos { match
config.add_repo(repo) { _ => {} } }`): `add_repo` is called once per record
and its result is discarded. -/
def bulkAdd (c : GitFindrConfig) (rs : List RepoData) :
    GitFindrConfig × List Msg :=
  match rs with
  | [] => (c, [])
  | r :: rest =>
    let a := c.add_repo r
    let b := bulkAdd a.2.1 rest
    (b.1, a.2.2 ++ b.2)

/-- The registry invariant: no two entries share a key, and every key maps to
a record whose `name` field equals that key. -/
def RegistryInv (c : GitFindrConfig) : Prop :=
  (c.repos.map Prod.fst).Nodup ∧ ∀ kv ∈ c.repos, kv.2.name = kv.1

instance (c : GitFindrConfig) : Decidable (RegistryInv c) := by
  unfold RegistryInv; infer_instance

/-- Registry states reachable from the empty registry through `add_repo` and
`remove_repo`. -/
inductive Reachable : GitFindrConfig → Prop where
  | empty : Reachable defaultConfig
  | add (c : GitFindrConfig) (r : RepoData) :
      Reachable c → Reachable (c.add_repo r).2.1
  | remove (c : GitFindrConfig) (n : String) :
      Reachable c → Reachable (c.remove_repo n).2

/-- A node of the model filesystem, as seen through one directory-entry read.
`file`, `dir` and `dirFail` are entries whose name and metadata are readable
(`dirFail` is a directory whose own later `read_dir` call fails with the given
code); `metaErr` is an entry whose name is readable but whose `metadata()`
call fails; `entryErr` is an `Err` item produced by the `read_dir` iterator
itself mid-iteration. -/
inductive FsNode where
  | file (name : String)
  | dir (name : String) (entries : List FsNode)
  | dirFail (name : String) (code : Nat)
  | metaErr (name : String)
  | entryErr (code : Nat)
deriving Repr

/-- Whether `metadata()` succeeds for the entry and reports a directory
(the `metadata.is_dir()` test in `parse_directory`). -/
def isDirNode : FsNode → Bool
  | .dir _ _ => true
  | .dirFail _ _ => true
  | _ => false

/-- `DirEntry::file_name()`: the name of a successfully read entry;
an `Err` iterator item carries no entry and hence no name. -/
def entryName : FsNode → Option String
  | .file n => some n
  | .dir n _ => some n
  | .dirFail n _ => some n
  | .metaErr n => some n
  | .entryErr _ => none

/-- The name component contributed by a successfully read entry to the path
`dir_entry.path()` of a pushed child (only `dir`/`dirFail` nodes are ever
pushed, and those always carry a name). -/
def nodeName : FsNode → String
  | .file n => n
  | .dir n _ => n
  | .dirFail n _ => n
  | .metaErr n => n
  | .entryErr _ => ""

/-- Whether the entry is an `Err` item of the `read_dir` iterator. -/
def isErrEntry : FsNode → Bool
  | .entryErr _ => true
  | _ => false

/-- `fs::read_dir` on the node: the entry-result list for a readable
directory, and an error code otherwise (code 20, ENOTDIR, for non-directory
nodes; the recorded code for a directory whose listing fails). -/
def readDirChildren : FsNode → Except Nat (List FsNode)
  | .dir _ es => .ok es
  | .dirFail _ c => .error c
  | .file _ => .error 20
  | .metaErr _ => .error 20
  | .entryErr c => .error c

/-- The entry loop of `validate_repo` (main.rs lines 141-150): walk the
entry results in order; return `Ok(())` at the first entry named `.git`;
propagate the first `Err` item; report `NotARepositoryError` if the listing
ends without a `.git` entry. -/
def checkEntries : List FsNode → Except GFError Unit
  | [] => .error .notARepository
  | .entryErr c :: _ => .error (.ioError c)
  | e :: es => if entryName e == some ".git" then .ok () else checkEntries es

/-- `validate_repo` (main.rs lines 138-155): `read_dir` the path and scan the
entries for one named `.git`; a failed `read_dir` is propagated as an I/O
error. -/
def validate_repo (t : FsNode) : Except GFError Unit :=
  match readDirChildren t with
  | .error c => .error (.ioError c)
  | .ok es => checkEntries es

/-- The child-collection loop of `parse_directory` (main.rs lines 168-174):
`while let Some(Ok(dir_entry)) = dir_it.next()` stops at the first `Err`
item; an entry with readable metadata that is a directory is kept, all other
entries are skipped. -/
def collectSubdirs : List FsNode → List FsNode
  | [] => []
  | .entryErr _ :: _ => []
  | e :: es => (if isDirNode e then [e] else []) ++ collectSubdirs es

/-- One iteration of the `parse_directory` loop body on a popped directory
`(p, t)`: the children to push (with their `dir_entry.path()` paths), the
`RepoData` record emitted for `t` itself (if any), and the console output of
the iteration, in order (`read_dir`-failure eprintln first, then the
name-extraction eprintln). -/
def scanStep (p : DirPath) (t : FsNode) :
    List (DirPath × FsNode) × List RepoData × List Msg :=
  let enum : List (DirPath × FsNode) × List Msg :=
    match readDirChildren t with
    | .ok es => ((collectSubdirs es).map (fun c => (p ++ [nodeName c], c)), [])
    | .error c => ([], [Msg.readDirFail c])
  let found : List RepoData × List Msg :=
    match validate_repo t with
    | .ok _ =>
      match fileStemPath p with
      | some nm => ([RepoData.new nm p], [])
      | none => ([], [Msg.nameExtractFail])
    | .error _ => ([], [])
  (enum.1, found.1, enum.2 ++ found.2)

/-- Supporting fact for termination: collected children are entries of the
listing. -/
theorem collectSubdirs_subset (es : List FsNode) :
    ∀ e ∈ collectSubdirs es, e ∈ es := by
  induction es with
  | nil => simp [collectSubdirs]
  | cons e es ih =>
    cases e <;> simp_all [collectSubdirs, isDirNode]

/-- Supporting fact for termination: the sizes of a list's elements sum to
less than the size of the list. -/
theorem sum_map_sizeOf_le (l : List FsNode) :
    (l.map sizeOf).sum + 1 ≤ sizeOf l := by
  induction l with
  | nil => simp
  | cons e l ih =>
    simp only [List.map_cons, List.sum_cons, List.cons.sizeOf_spec]
    omega

/-- Supporting fact for termination: collecting children never increases the
summed size. -/
theorem collectSubdirs_size (es : List FsNode) :
    ((collectSubdirs es).map sizeOf).sum ≤ (es.map sizeOf).sum := by
  induction es with
  | nil => simp [collectSubdirs]
  | cons e es ih =>
    cases e <;> simp [collectSubdirs, isDirNode] <;> omega

/-- Supporting fact for termination: the children pushed for a directory are
strictly smaller in total than the directory itself. -/
theorem scanStep_pushed_size (p : DirPath) (t : FsNode) :
    ((scanStep p t).1.map (fun w => sizeOf w.2)).sum < sizeOf t := by
  cases t with
  | dir n es =>
    have h1 := collectSubdirs_size es
    have h2 := sum_map_sizeOf_le es
    have h3 : ((scanStep p (FsNode.dir n es)).1.map (fun w => sizeOf w.2)).sum
        = ((collectSubdirs es).map sizeOf).sum := by
      rw [show (scanStep p (FsNode.dir n es)).1
          = (collectSubdirs es).map (fun c => (p ++ [nodeName c], c)) from rfl,
        List.map_map]
      rfl
    rw [h3]
    simp only [FsNode.dir.sizeOf_spec]
    omega
  | file n => simp [scanStep, readDirChildren, FsNode.file.sizeOf_spec]
  | dirFail n c => simp [scanStep, readDirChildren, FsNode.dirFail.sizeOf_spec]
  | metaErr n => simp [scanStep, readDirChildren, FsNode.metaErr.sizeOf_spec]
  | entryErr c => simp [scanStep, readDirChildren, FsNode.entryErr.sizeOf_spec]

/-- The `while let Some(dir) = dir_paths.pop()` loop of `parse_directory`
(main.rs lines 163-194). The Rust `Vec` stack is modelled with its top at the
head of the list, so the children pushed in listing order are popped in
reverse listing order, exactly as `Vec::push`/`Vec::pop` do. Returns the
accumulated records and console output. -/
def scanLoop : List (DirPath × FsNode) → List RepoData × List Msg
  | [] => ([], [])
  | (p, t) :: rest =>
    let r := scanLoop ((scanStep p t).1.reverse ++ rest)
    ((scanStep p t).2.1 ++ r.1, (scanStep p t).2.2 ++ r.2)
termination_by pending => (pending.map (fun w => sizeOf w.2)).sum
decreasing_by
  simp only [List.map_append, List.map_reverse, List.sum_append,
    List.sum_reverse, List.map_cons, List.sum_cons]
  have := scanStep_pushed_size p t
  omega

/-- `parse_directory` (main.rs lines 158-196): push the root path and run the
stack loop; the function's `Result` is always the `Ok` of the collected
records (its final line is `Ok(repos)`), paired here with the console
output it produced. -/
def parse_directory (p : DirPath) (t : FsNode) :
    Except GFError (List RepoData) × List Msg :=
  (.ok (scanLoop [(p, t)]).1, (scanLoop [(p, t)]).2)

/-- Supporting fact for termination of `walkGen`: removing the selected item
splits the summed size. -/
theorem map_sum_eraseIdx {α : Type} (f : α → Nat) :
    ∀ (l : List α) (i : Fin l.length),
      (l.map f).sum = f (l.get i) + ((l.eraseIdx i.1).map f).sum := by
  intro l
  induction l with
  | nil => exact fun i => absurd i.2 (by simp)
  | cons a l ih =>
    intro i
    match i with
    | ⟨0, _⟩ => simp [List.eraseIdx]
    | ⟨j + 1, hj⟩ =>
      have hj' : j < l.length := by simpa using hj
      have := ih ⟨j, hj'⟩
      simp only [List.map_cons, List.sum_cons, List.get_cons_succ,
        List.eraseIdx_cons_succ] at *
      omega

/-- A generalisation of the `parse_directory` loop in which `pick` chooses
which pending directory to process next (the Rust code always picks the last
one, i.e. `Vec::pop`); used to state traversal-order independence. -/
def walkGen (pick : (l : List (DirPath × FsNode)) → l ≠ [] → Fin l.length) :
    List (DirPath × FsNode) → List RepoData × List Msg
  | [] => ([], [])
  | w :: rest =>
    let i := pick (w :: rest) (List.cons_ne_nil w rest)
    let x := (w :: rest).get i
    let r := walkGen pick ((scanStep x.1 x.2).1.reverse ++ (w :: rest).eraseIdx i.1)
    ((scanStep x.1 x.2).2.1 ++ r.1, (scanStep x.1 x.2).2.2 ++ r.2)
termination_by pending => (pending.map (fun w => sizeOf w.2)).sum
decreasing_by
  simp only [List.map_append, List.map_reverse, List.sum_append,
    List.sum_reverse]
  have h1 := scanStep_pushed_size
    ((w :: rest).get (pick (w :: rest) (List.cons_ne_nil w rest))).1
    ((w :: rest).get (pick (w :: rest) (List.cons_ne_nil w rest))).2
  have h2 := map_sum_eraseIdx (fun w => sizeOf w.2) (w :: rest)
    (pick (w :: rest) (List.cons_ne_nil w rest))
  omega

/-- Whether a listing contains an entry named `.git` (the property
`validate_repo` tests for, when no entry-read error intervenes). -/
def hasGitEntry (es : List FsNode) : Bool :=
  es.any (fun e => entryName e == some ".git")

/-- The entries of a listing before the first `Err` iterator item; these are
the only ones `validate_repo` and the walker of `parse_directory` examine. -/
def entriesBeforeErr (es : List FsNode) : List FsNode :=
  es.takeWhile (fun e => !isErrEntry e)

/-- An error-free filesystem subtree: every directory listing succeeds, every
entry reads successfully and has readable metadata. -/
def cleanN : FsNode → Bool
  | .file _ => true
  | .dir _ es => es.attach.all (fun e => cleanN e.1)
  | _ => false
decreasing_by
  have h := List.sizeOf_lt_of_mem e.2
  simp only [FsNode.dir.sizeOf_spec]
  omega

/-- The number of repositories in a tree: directories (the root included)
with a direct child entry named `.git`. -/
def countRepos : FsNode → Nat
  | .dir _ es => (if hasGitEntry es then 1 else 0) +
      (es.attach.map (fun e => countRepos e.1)).sum
  | _ => 0
decreasing_by
  have h := List.sizeOf_lt_of_mem e.2
  simp only [FsNode.dir.sizeOf_spec]
  omega

/-- The records contributed by one pending directory and its whole subtree,
described recursively over the tree rather than by the work-list loop: the
directory's own record (if any) followed by the contributions of the children
the walker would push for it. -/
def declNode : DirPath → FsNode → List RepoData
  | p, .dir n es =>
    (scanStep p (.dir n es)).2.1 ++
      ((collectSubdirs es).attach.map
        (fun c => declNode (p ++ [nodeName c.1]) c.1)).flatten
  | p, t => (scanStep p t).2.1
termination_by p t => sizeOf t
decreasing_by
  have h1 := collectSubdirs_subset es c.1 c.2
  have h2 := List.sizeOf_lt_of_mem h1
  simp only [FsNode.dir.sizeOf_spec]
  omega

/-- The pick strategy that always processes the first pending directory
(used to witness traversal-order independence; the Rust code itself always
picks the last one, which is what `scanLoop` does). -/
def pickFirst : (l : List (DirPath × FsNode)) → l ≠ [] → Fin l.length :=
  fun l h => ⟨0, List.length_pos.2 h⟩

/-- Whether a console message is the success line of `add_repo`. -/
def isAddedMsg : Msg → Bool
  | .added _ => true
  | _ => false

/-! ### Registry lemmas -/

theorem containsKey_iff (l : List (String × RepoData)) (k : String) :
    containsKey l k = true ↔ ∃ kv ∈ l, kv.1 = k := by
  simp [containsKey, List.any_eq_true, beq_iff_eq]

theorem hmGet_eq_none_of_not_contains (l : List (String × RepoData))
    (k : String) (h : containsKey l k = false) : hmGet l k = none := by
  induction l with
  | nil => simp [hmGet]
  | cons kv l ih =>
    simp only [containsKey, List.any_cons, Bool.or_eq_false_iff] at h
    simp only [hmGet, List.find?_cons, h.1]
    exact ih (by simp [containsKey, h.2])

theorem hmGet_append_singleton (l : List (String × RepoData)) (k : String)
    (v : RepoData) (h : containsKey l k = false) :
    hmGet (l ++ [(k, v)]) k = some v := by
  induction l with
  | nil => simp [hmGet]
  | cons kv l ih =>
    simp only [containsKey, List.any_cons, Bool.or_eq_false_iff] at h
    simp only [List.cons_append, hmGet, List.find?_cons, h.1]
    exact ih (by simp [containsKey, h.2])

theorem containsKey_not_mem_keys (l : List (String × RepoData)) (k : String)
    (h : k ∉ l.map Prod.fst) : containsKey l k = false := by
  rcases hc : containsKey l k with _ | _
  · rfl
  · rcases (containsKey_iff l k).1 hc with ⟨kv, hkv, hk⟩
    exact absurd (List.mem_map.2 ⟨kv, hkv, hk⟩) h

theorem containsKey_hmRemove_of_nodup (l : List (String × RepoData))
    (k : String) (h : (l.map Prod.fst).Nodup) :
    containsKey (hmRemove l k) k = false := by
  induction l with
  | nil => simp [hmRemove, containsKey]
  | cons kv l ih =>
    simp only [List.map_cons, List.nodup_cons] at h
    rcases hb : (kv.1 == k) with _ | _
    · simp only [hmRemove, List.eraseP_cons, hb, cond_false]
      simp only [containsKey, List.any_cons, hb, Bool.false_or]
      exact ih h.2
    · simp only [hmRemove, List.eraseP_cons, hb, cond_true]
      have hk : kv.1 = k := by simpa using hb
      exact containsKey_not_mem_keys l k (hk ▸ h.1)

/-- C4 helper: a fresh add really appends the record at the end. -/
theorem add_repo_fresh (c : GitFindrConfig) (r : RepoData)
    (h : containsKey c.repos r.name = false) :
    c.add_repo r = (.ok (), { repos := c.repos ++ [(r.name, r)] },
      [.added r.name]) := by
  simp [GitFindrConfig.add_repo, h, hmInsert]

/-- Registry helper: adding a name already present fails and mutates
nothing. -/
theorem add_repo_dup (c : GitFindrConfig) (r : RepoData)
    (h : containsKey c.repos r.name = true) :
    c.add_repo r = (.error .alreadyExists, c, []) := by
  simp [GitFindrConfig.add_repo, h]

/-- C4, first part of the claim. -/
theorem add_then_get (c : GitFindrConfig) (r : RepoData)
    (h : containsKey c.repos r.name = false) :
    (c.add_repo r).1 = .ok () ∧
      (c.add_repo r).2.1.get_repo r.name = some r := by
  rw [add_repo_fresh c r h]
  exact ⟨rfl, hmGet_append_singleton c.repos r.name r h⟩

/-! ### Claims C4, C5, C6, C9 -/

/-- C4: for every registry state in which `r.name` is fresh, `add_repo r`
succeeds and an immediate `get_repo r.name` returns the just-added record;
and a second `add_repo` of a record with the same name then fails with
`AlreadyExists`, leaves the registry (hence the first record) unchanged, and
performs no partial mutation. -/
theorem C4_add_then_get_and_duplicate_add :
    (∀ (c : GitFindrConfig) (r : RepoData),
        containsKey c.repos r.name = false →
          (c.add_repo r).1 = .ok () ∧
          (c.add_repo r).2.1.get_repo r.name = some r) ∧
    (∀ (c : GitFindrConfig) (r r2 : RepoData),
        containsKey c.repos r.name = false → r2.name = r.name →
          ((c.add_repo r).2.1.add_repo r2).1 = .error .alreadyExists ∧
          ((c.add_repo r).2.1.add_repo r2).2.1 = (c.add_repo r).2.1 ∧
          ((c.add_repo r).2.1.add_repo r2).2.1.get_repo r.name = some r) := by
  refine ⟨add_then_get, ?_⟩
  intro c r r2 hfresh hname
  have hmem : containsKey (c.add_repo r).2.1.repos r2.name = true := by
    rw [add_repo_fresh c r hfresh]
    simp [containsKey, List.any_append, hname]
  rw [add_repo_dup (c.add_repo r).2.1 r2 hmem]
  exact ⟨rfl, rfl, (add_then_get c r hfresh).2⟩

/-- C4 witness: the theorem applied to the empty registry and two concrete
records sharing the name `x`. -/
theorem C4_witness :
    ((defaultConfig.add_repo (RepoData.new "x" ["p1"])).1 = .ok () ∧
      (defaultConfig.add_repo (RepoData.new "x" ["p1"])).2.1.get_repo "x"
        = some (RepoData.new "x" ["p1"])) ∧
    (((defaultConfig.add_repo (RepoData.new "x" ["p1"])).2.1.add_repo
        (RepoData.new "x" ["p2"])).1 = .error .alreadyExists ∧
      ((defaultConfig.add_repo (RepoData.new "x" ["p1"])).2.1.add_repo
        (RepoData.new "x" ["p2"])).2.1
        = (defaultConfig.add_repo (RepoData.new "x" ["p1"])).2.1) := by
  refine ⟨C4_add_then_get_and_duplicate_add.1 defaultConfig
    (RepoData.new "x" ["p1"]) (by decide), ?_⟩
  have h := C4_add_then_get_and_duplicate_add.2 defaultConfig
    (RepoData.new "x" ["p1"]) (RepoData.new "x" ["p2"]) (by decide) rfl
  exact ⟨h.1, h.2.1⟩

/-- C5: `remove_repo` on an absent name fails with `DoesNotExist` and leaves
the registry completely unchanged; on a present name (in a well-formed
registry state, i.e. one with no duplicate keys, the only states a `HashMap`
can hold) it succeeds, the entry for the name disappears, and a subsequent
`get_repo` returns `none`. -/
theorem C5_remove_semantics :
    (∀ (c : GitFindrConfig) (n : String),
        containsKey c.repos n = false →
          c.remove_repo n = (.error .doesNotExist, c)) ∧
    (∀ (c : GitFindrConfig) (n : String),
        (c.repos.map Prod.fst).Nodup → containsKey c.repos n = true →
          (c.remove_repo n).1 = .ok () ∧
          containsKey (c.remove_repo n).2.repos n = false ∧
          (c.remove_repo n).2.get_repo n = none) := by
  constructor
  · intro c n h
    simp [GitFindrConfig.remove_repo, h]
  · intro c n hnd h
    have h1 : (c.remove_repo n) = (.ok (), { repos := hmRemove c.repos n }) := by
      simp [GitFindrConfig.remove_repo, h]
    have h2 := containsKey_hmRemove_of_nodup c.repos n hnd
    rw [h1]
    exact ⟨rfl, h2, hmGet_eq_none_of_not_contains _ n h2⟩

/-- C5 witness: the theorem applied to a one-entry registry, once with an
absent name and once with the present name. -/
theorem C5_witness :
    ((GitFindrConfig.mk [("x", RepoData.new "x" ["p"])]).remove_repo "y"
      = (.error .doesNotExist, GitFindrConfig.mk [("x", RepoData.new "x" ["p"])])) ∧
    ((GitFindrConfig.mk [("x", RepoData.new "x" ["p"])]).remove_repo "x").1 = .ok () ∧
    ((GitFindrConfig.mk [("x", RepoData.new "x" ["p"])]).remove_repo "x").2.get_repo "x"
      = none := by
  refine ⟨C5_remove_semantics.1 _ "y" (by decide), ?_⟩
  have h := C5_remove_semantics.2 (GitFindrConfig.mk [("x", RepoData.new "x" ["p"])])
    "x" (by decide) (by decide)
  exact ⟨h.1, h.2.2⟩

/-- C6 helper: `add_repo` preserves the registry invariant. -/
theorem registryInv_add (c : GitFindrConfig) (r : RepoData)
    (h : RegistryInv c) : RegistryInv (c.add_repo r).2.1 := by
  rcases hc : containsKey c.repos r.name with _ | _
  · rw [add_repo_fresh c r hc]
    constructor
    · have hnm : r.name ∉ c.repos.map Prod.fst := by
        intro hmem
        rcases List.mem_map.1 hmem with ⟨kv, hkv, hk⟩
        have hcc := (containsKey_iff c.repos r.name).2 ⟨kv, hkv, hk⟩
        rw [hc] at hcc
        exact Bool.false_ne_true hcc
      simpa [List.nodup_append, hnm] using h.1
    · intro kv hkv
      rcases List.mem_append.1 hkv with h1 | h1
      · exact h.2 kv h1
      · simp only [List.mem_singleton] at h1
        subst h1
        rfl
  · rw [add_repo_dup c r hc]
    exact h

/-- C6 helper: `remove_repo` preserves the registry invariant. -/
theorem registryInv_remove (c : GitFindrConfig) (n : String)
    (h : RegistryInv c) : RegistryInv (c.remove_repo n).2 := by
  rcases hc : containsKey c.repos n with _ | _
  · have : (c.remove_repo n) = (.error .doesNotExist, c) := by
      simp [GitFindrConfig.remove_repo, hc]
    rw [this]
    exact h
  · have : (c.remove_repo n) = (.ok (), { repos := hmRemove c.repos n }) := by
      simp [GitFindrConfig.remove_repo, hc]
    rw [this]
    have hsub : List.Sublist (hmRemove c.repos n) c.repos := List.eraseP_sublist _
    constructor
    · exact List.Nodup.sublist (hsub.map Prod.fst) h.1
    · intro kv hkv
      exact h.2 kv (hsub.subset hkv)

/-- C6: the registry invariant (keys pairwise distinct, and every key equal
to the `name` of the record it maps to) holds for the empty registry, is
preserved by every `add_repo` and `remove_repo`, and therefore holds in every
reachable registry state. -/
theorem C6_registry_invariant :
    RegistryInv defaultConfig ∧
    (∀ (c : GitFindrConfig) (r : RepoData),
        RegistryInv c → RegistryInv (c.add_repo r).2.1) ∧
    (∀ (c : GitFindrConfig) (n : String),
        RegistryInv c → RegistryInv (c.remove_repo n).2) ∧
    (∀ c : GitFindrConfig, Reachable c → RegistryInv c) := by
  refine ⟨⟨List.nodup_nil, by simp [defaultConfig]⟩, registryInv_add,
    registryInv_remove, ?_⟩
  intro c hc
  induction hc with
  | empty => exact ⟨List.nodup_nil, by simp [defaultConfig]⟩
  | add c r _ ih => exact registryInv_add c r ih
  | remove c n _ ih => exact registryInv_remove c n ih

/-- C6 witness: the preservation parts applied to a concrete one-entry
registry. -/
theorem C6_witness :
    RegistryInv ((GitFindrConfig.mk [("x", RepoData.new "x" ["p"])]).add_repo
      (RepoData.new "y" ["q"])).2.1 ∧
    RegistryInv ((GitFindrConfig.mk [("x", RepoData.new "x" ["p"])]).remove_repo
      "x").2 := by
  exact ⟨C6_registry_invariant.2.1 _ (RepoData.new "y" ["q"]) (by decide),
    C6_registry_invariant.2.2.1 _ "x" (by decide)⟩

/-- C9 helper: the bulk-add loop splits over list append. -/
theorem bulkAdd_append (c : GitFindrConfig) (xs ys : List RepoData) :
    bulkAdd c (xs ++ ys)
      = ((bulkAdd (bulkAdd c xs).1 ys).1,
         (bulkAdd c xs).2 ++ (bulkAdd (bulkAdd c xs).1 ys).2) := by
  induction xs generalizing c with
  | nil => simp [bulkAdd]
  | cons x xs ih =>
    simp only [List.cons_append, bulkAdd, List.append_eq]
    rw [ih]
    simp [List.append_assoc]

/-- C9 counterexample: with the batch x@p1, x@p2, y@p3 against an empty
registry, the colliding record x@p2 is skipped and the batch continues (y@p3
is inserted), but nothing is reported: the console output consists of the
two success lines only, with no error report for the collision — refuting
the claim that the skipped record is reported. -/
theorem C9_counterexample :
    bulkAdd defaultConfig
      [RepoData.new "x" ["p1"], RepoData.new "x" ["p2"], RepoData.new "y" ["p3"]]
      = (GitFindrConfig.mk
          [("x", RepoData.new "x" ["p1"]), ("y", RepoData.new "y" ["p3"])],
         [Msg.added "x", Msg.added "y"]) ∧
    ((bulkAdd defaultConfig
      [RepoData.new "x" ["p1"], RepoData.new "x" ["p2"], RepoData.new "y" ["p3"]]).2.all
        isAddedMsg) = true := by
  decide

/-- C9 (amended): during a bulk add, `add_repo` is called once per record;
a record whose name collides with an already-registered alias is skipped
silently (no mutation and no console output for it) while every remaining
record in the batch is still processed — the batch is not atomic. -/
theorem C9_bulk_add_skips_silently (c : GitFindrConfig) (pre : List RepoData)
    (r : RepoData) (post : List RepoData)
    (h : containsKey (bulkAdd c pre).1.repos r.name = true) :
    bulkAdd c (pre ++ r :: post)
      = ((bulkAdd (bulkAdd c pre).1 post).1,
         (bulkAdd c pre).2 ++ (bulkAdd (bulkAdd c pre).1 post).2) := by
  rw [bulkAdd_append]
  simp [bulkAdd, add_repo_dup (bulkAdd c pre).1 r h]

/-- C9 witness: the amended theorem applied to the concrete batch of the
counterexample, with the collision in the middle. -/
theorem C9_witness :
    bulkAdd defaultConfig
      ([RepoData.new "x" ["p1"]] ++ RepoData.new "x" ["p2"] :: [RepoData.new "y" ["p3"]])
      = ((bulkAdd (bulkAdd defaultConfig [RepoData.new "x" ["p1"]]).1
            [RepoData.new "y" ["p3"]]).1,
         (bulkAdd defaultConfig [RepoData.new "x" ["p1"]]).2 ++
           (bulkAdd (bulkAdd defaultConfig [RepoData.new "x" ["p1"]]).1
            [RepoData.new "y" ["p3"]]).2) :=
  C9_bulk_add_skips_silently defaultConfig [RepoData.new "x" ["p1"]]
    (RepoData.new "x" ["p2"]) [RepoData.new "y" ["p3"]] (by decide)

/-! ### Validator lemmas and claim C1 -/

theorem checkEntries_cons_named (e : FsNode) (es : List FsNode)
    (h : isErrEntry e = false) :
    checkEntries (e :: es)
      = if entryName e == some ".git" then .ok () else checkEntries es := by
  cases e <;> simp_all [checkEntries, isErrEntry]

theorem entriesBeforeErr_cons_named (e : FsNode) (es : List FsNode)
    (h : isErrEntry e = false) :
    entriesBeforeErr (e :: es) = e :: entriesBeforeErr es := by
  simp [entriesBeforeErr, List.takeWhile_cons, h]

theorem checkEntries_ok_iff (es : List FsNode) :
    checkEntries es = .ok () ↔ hasGitEntry (entriesBeforeErr es) = true := by
  induction es with
  | nil => simp [checkEntries, entriesBeforeErr, hasGitEntry]
  | cons e es ih =>
    rcases he : isErrEntry e with _ | _
    · rw [checkEntries_cons_named e es he, entriesBeforeErr_cons_named e es he]
      rcases hgit : (entryName e == some ".git") with _ | _
      · simpa [hasGitEntry, hgit] using ih
      · simp [hasGitEntry, hgit]
    · cases e <;> simp_all [isErrEntry, checkEntries, entriesBeforeErr,
        hasGitEntry]

theorem checkEntries_notARepo (es : List FsNode)
    (h1 : es.all (fun e => !isErrEntry e) = true) (h2 : hasGitEntry es = false) :
    checkEntries es = .error .notARepository := by
  induction es with
  | nil => simp [checkEntries]
  | cons e es ih =>
    simp only [List.all_cons, Bool.and_eq_true, Bool.not_eq_true'] at h1
    simp only [hasGitEntry, List.any_cons, Bool.or_eq_false_iff] at h2
    rw [checkEntries_cons_named e es h1.1, h2.1]
    exact if_neg (by simp) |>.trans (ih (by simpa using h1.2) (by simp [hasGitEntry, h2.2]))

theorem checkEntries_stops_at_err (pre : List FsNode) (c : Nat)
    (post : List FsNode) (h1 : pre.all (fun e => !isErrEntry e) = true)
    (h2 : hasGitEntry pre = false) :
    checkEntries (pre ++ .entryErr c :: post) = .error (.ioError c) := by
  induction pre with
  | nil => simp [checkEntries]
  | cons e pre ih =>
    simp only [List.all_cons, Bool.and_eq_true, Bool.not_eq_true'] at h1
    simp only [hasGitEntry, List.any_cons, Bool.or_eq_false_iff] at h2
    rw [List.cons_append, checkEntries_cons_named e _ h1.1, h2.1]
    exact if_neg (by simp) |>.trans (ih (by simpa using h1.2) (by simp [hasGitEntry, h2.2]))

/-- C1 (amended): `validate_repo` on a readable directory succeeds exactly
when a child entry named `.git` appears among the entries before the first
entry-read error; on a readable directory whose entries all read successfully
and contain no `.git` it fails with `NotARepository`; on a directory that
cannot be listed at all it fails with the propagated I/O error, which is
distinct from `NotARepository`; and an entry-read error occurring before any
`.git` entry is likewise propagated as an I/O error. -/
theorem C1_validate_repo_semantics :
    (∀ (n : String) (es : List FsNode),
        validate_repo (.dir n es) = .ok () ↔
          hasGitEntry (entriesBeforeErr es) = true) ∧
    (∀ (n : String) (es : List FsNode),
        es.all (fun e => !isErrEntry e) = true → hasGitEntry es = false →
          validate_repo (.dir n es) = .error .notARepository) ∧
    (∀ (n : String) (c : Nat),
        validate_repo (.dirFail n c) = .error (.ioError c) ∧
          GFError.ioError c ≠ GFError.notARepository) ∧
    (∀ (n : String) (pre : List FsNode) (c : Nat) (post : List FsNode),
        pre.all (fun e => !isErrEntry e) = true → hasGitEntry pre = false →
          validate_repo (.dir n (pre ++ .entryErr c :: post))
            = .error (.ioError c)) := by
  refine ⟨?_, ?_, ?_, ?_⟩
  · intro n es
    simpa [validate_repo, readDirChildren] using checkEntries_ok_iff es
  · intro n es h1 h2
    simpa [validate_repo, readDirChildren] using checkEntries_notARepo es h1 h2
  · intro n c
    exact ⟨rfl, by simp⟩
  · intro n pre c post h1 h2
    simpa [validate_repo, readDirChildren] using
      checkEntries_stops_at_err pre c post h1 h2

/-- C1 counterexample: a directory that does have a direct child entry named
`.git` can still fail validation — when an entry-read error precedes the
`.git` entry, `validate_repo` propagates the I/O error instead of
succeeding, refuting the claimed equivalence. -/
theorem C1_counterexample :
    hasGitEntry [FsNode.entryErr 5, FsNode.file ".git"] = true ∧
    validate_repo (.dir "d" [.entryErr 5, .file ".git"])
      = .error (.ioError 5) := by
  exact ⟨rfl, rfl⟩

/-- C1 witness: the amended theorem applied at concrete directories. -/
theorem C1_witness :
    validate_repo (.dir "d" [.file "README"]) = .error .notARepository ∧
    validate_repo (.dirFail "d" 13) = .error (.ioError 13) ∧
    validate_repo (.dir "d" ([.file "README"] ++ .entryErr 9 :: [.file ".git"]))
      = .error (.ioError 9) :=
  ⟨C1_validate_repo_semantics.2.1 "d" [.file "README"] (by decide) (by decide),
   (C1_validate_repo_semantics.2.2.1 "d" 13).1,
   C1_validate_repo_semantics.2.2.2 "d" [.file "README"] 9 [.file ".git"]
     (by decide) (by decide)⟩

/-! ### Walker lemmas -/

theorem scanLoop_nil : scanLoop [] = ([], []) := by
  simp [scanLoop]

theorem scanLoop_cons (p : DirPath) (t : FsNode)
    (rest : List (DirPath × FsNode)) :
    scanLoop ((p, t) :: rest)
      = ((scanStep p t).2.1 ++ (scanLoop ((scanStep p t).1.reverse ++ rest)).1,
         (scanStep p t).2.2 ++ (scanLoop ((scanStep p t).1.reverse ++ rest)).2) := by
  rw [scanLoop]

theorem declNode_eq (p : DirPath) (t : FsNode) :
    declNode p t = (scanStep p t).2.1 ++
      ((scanStep p t).1.map (fun w => declNode w.1 w.2)).flatten := by
  cases t with
  | dir n es =>
    rw [declNode]
    congr 1
    rw [List.attach_map_val (collectSubdirs es)
        (fun c => declNode (p ++ [nodeName c]) c),
      show (scanStep p (FsNode.dir n es)).1
        = (collectSubdirs es).map (fun c => (p ++ [nodeName c], c)) from rfl,
      List.map_map]
    rfl
  | file n => simp [declNode, scanStep, readDirChildren]
  | dirFail n c => simp [declNode, scanStep, readDirChildren]
  | metaErr n => simp [declNode, scanStep, readDirChildren]
  | entryErr c => simp [declNode, scanStep, readDirChildren]

/-- The records of the stack loop are a permutation of the recursively
described records of the pending work items. -/
theorem scanLoop_perm :
    ∀ pending : List (DirPath × FsNode),
      List.Perm (scanLoop pending).1
        ((pending.map (fun w => declNode w.1 w.2)).flatten)
  | [] => by simp [scanLoop]
  | (p, t) :: rest => by
    have ih := scanLoop_perm ((scanStep p t).1.reverse ++ rest)
    rw [List.map_append, List.flatten_append, List.map_reverse] at ih
    have h1 : List.Perm
        (((scanStep p t).1.map (fun w => declNode w.1 w.2)).reverse)
        ((scanStep p t).1.map (fun w => declNode w.1 w.2)) :=
      List.reverse_perm _
    have h2 := (h1.flatten).append_right
      ((rest.map (fun w => declNode w.1 w.2)).flatten)
    have h3 := ih.trans h2
    rw [scanLoop_cons, List.map_cons, List.flatten_cons, declNode_eq p t,
      List.append_assoc]
    exact h3.append_left (scanStep p t).2.1
termination_by pending => (pending.map (fun w => sizeOf w.2)).sum
decreasing_by
  simp only [List.map_append, List.map_reverse, List.sum_append,
    List.sum_reverse, List.map_cons, List.sum_cons]
  have := scanStep_pushed_size p t
  omega

theorem perm_get_cons_eraseIdx {α : Type} :
    ∀ (l : List α) (i : Fin l.length),
      List.Perm l (l.get i :: l.eraseIdx i.1)
  | a :: l, ⟨0, _⟩ => by simp
  | a :: l, ⟨j + 1, hj⟩ => by
    have hj' : j < l.length := by simpa using hj
    have ih := perm_get_cons_eraseIdx l ⟨j, hj'⟩
    simp only [List.get_cons_succ, List.eraseIdx_cons_succ]
    exact (ih.cons a).trans (List.Perm.swap _ _ _)

/-- The generalised walker produces, for any pick strategy, a permutation of
the recursively described records. -/
theorem walkGen_perm
    (pick : (l : List (DirPath × FsNode)) → l ≠ [] → Fin l.length) :
    ∀ pending : List (DirPath × FsNode),
      List.Perm (walkGen pick pending).1
        ((pending.map (fun w => declNode w.1 w.2)).flatten)
  | [] => by simp [walkGen]
  | w :: rest => by
    have ih := walkGen_perm pick
      ((scanStep ((w :: rest).get (pick (w :: rest) (List.cons_ne_nil w rest))).1
          ((w :: rest).get (pick (w :: rest) (List.cons_ne_nil w rest))).2).1.reverse
        ++ (w :: rest).eraseIdx (pick (w :: rest) (List.cons_ne_nil w rest)).1)
    rw [List.map_append, List.flatten_append, List.map_reverse] at ih
    have h1 := List.reverse_perm
      ((scanStep ((w :: rest).get (pick (w :: rest) (List.cons_ne_nil w rest))).1
          ((w :: rest).get (pick (w :: rest) (List.cons_ne_nil w rest))).2).1.map
        (fun w => declNode w.1 w.2))
    have h2 := (h1.flatten).append_right
      ((((w :: rest).eraseIdx (pick (w :: rest) (List.cons_ne_nil w rest)).1).map
        (fun w => declNode w.1 w.2)).flatten)
    have h3 := ih.trans h2
    have h4 := h3.append_left
      (scanStep ((w :: rest).get (pick (w :: rest) (List.cons_ne_nil w rest))).1
        ((w :: rest).get (pick (w :: rest) (List.cons_ne_nil w rest))).2).2.1
    have h5 := (perm_get_cons_eraseIdx (w :: rest)
      (pick (w :: rest) (List.cons_ne_nil w rest))).map
      (fun w => declNode w.1 w.2)
    have h6 := h5.flatten
    simp only [walkGen]
    refine List.Perm.trans ?_ h6.symm
    rw [List.map_cons, List.flatten_cons, declNode_eq, List.append_assoc]
    exact h4
termination_by pending => (pending.map (fun w => sizeOf w.2)).sum
decreasing_by
  simp only [List.map_append, List.map_reverse, List.sum_append,
    List.sum_reverse]
  have h1 := scanStep_pushed_size
    ((w :: rest).get (pick (w :: rest) (List.cons_ne_nil w rest))).1
    ((w :: rest).get (pick (w :: rest) (List.cons_ne_nil w rest))).2
  have h2 := map_sum_eraseIdx (fun w => sizeOf w.2) (w :: rest)
    (pick (w :: rest) (List.cons_ne_nil w rest))
  omega


theorem collectSubdirs_append_err (pre : List FsNode) (c : Nat)
    (post : List FsNode) :
    collectSubdirs (pre ++ .entryErr c :: post)
      = collectSubdirs (pre ++ [.entryErr c]) := by
  induction pre with
  | nil => rfl
  | cons e pre ih =>
    cases e <;> simp [collectSubdirs, ih]

theorem checkEntries_append_err (pre : List FsNode) (c : Nat)
    (post : List FsNode) :
    checkEntries (pre ++ .entryErr c :: post)
      = checkEntries (pre ++ [.entryErr c]) := by
  induction pre with
  | nil => rfl
  | cons e pre ih =>
    rcases he : isErrEntry e with _ | _
    · rw [List.cons_append, checkEntries_cons_named e _ he,
        List.cons_append, checkEntries_cons_named e _ he, ih]
    · cases e <;> simp_all [isErrEntry, checkEntries]

theorem scanStep_truncate_at_err (p : DirPath) (n : String)
    (pre : List FsNode) (c : Nat) (post : List FsNode) :
    scanStep p (.dir n (pre ++ .entryErr c :: post))
      = scanStep p (.dir n (pre ++ [.entryErr c])) := by
  simp only [scanStep, validate_repo, readDirChildren]
  rw [collectSubdirs_append_err pre c post, checkEntries_append_err pre c post]

/-! ### Claims C7, C8, C10 -/

/-- C7: traversal-order independence — for ANY strategy of choosing which
pending directory to pop next, the generalised walker produces a permutation
(hence the same multiset, hence the same set) of the records returned by the
actual stack-based `parse_directory`. -/
theorem C7_traversal_order_independent
    (pick : (l : List (DirPath × FsNode)) → l ≠ [] → Fin l.length)
    (p : DirPath) (t : FsNode) (rs : List RepoData) (ms : List Msg)
    (h : parse_directory p t = (.ok rs, ms)) :
    List.Perm (walkGen pick [(p, t)]).1 rs := by
  have h0 : (parse_directory p t).1 = .ok rs := by rw [h]
  have h1 : (scanLoop [(p, t)]).1 = rs := by
    simpa [parse_directory] using h0
  rw [← h1]
  exact (walkGen_perm pick [(p, t)]).trans (scanLoop_perm [(p, t)]).symm

/-- C7 witness: the first-pick walker on a concrete tree produces a
permutation of the stack walker's records. -/
theorem C7_witness :
    List.Perm
      (walkGen pickFirst [(["root"], .dir "root" [.dir "a" [.file ".git"]])]).1
      [RepoData.new "a" ["root", "a"]] :=
  C7_traversal_order_independent pickFirst ["root"]
    (.dir "root" [.dir "a" [.file ".git"]]) [RepoData.new "a" ["root", "a"]] []
    (by simp [parse_directory, scanLoop, scanStep, readDirChildren,
      collectSubdirs, isDirNode, nodeName, validate_repo, checkEntries,
      entryName, fileStemPath, fileStem, RepoData.new])

/-- C8: `parse_directory` never fails fatally — its `Result` component is
always `Ok` of the collected records; a pending directory whose children
cannot be enumerated contributes only the report of its `read_dir` error and
the scan continues with the remaining pending directories; likewise a
repository directory whose default name cannot be derived contributes only
the name-extraction report and the scan continues. -/
theorem C8_scan_never_fatal :
    (∀ (p : DirPath) (t : FsNode), ∃ rs, (parse_directory p t).1 = .ok rs) ∧
    (∀ (p : DirPath) (n : String) (c : Nat) (rest : List (DirPath × FsNode)),
        scanLoop ((p, .dirFail n c) :: rest)
          = ((scanLoop rest).1, Msg.readDirFail c :: (scanLoop rest).2)) ∧
    (∀ (n : String) (rest : List (DirPath × FsNode)),
        scanLoop (([], .dir n [.file ".git"]) :: rest)
          = ((scanLoop rest).1, Msg.nameExtractFail :: (scanLoop rest).2)) := by
  refine ⟨fun p t => ⟨(scanLoop [(p, t)]).1, rfl⟩, ?_, ?_⟩
  · intro p n c rest
    rw [scanLoop_cons]
    have h : scanStep p (.dirFail n c) = ([], [], [Msg.readDirFail c]) := rfl
    rw [h]
    simp
  · intro n rest
    rw [scanLoop_cons]
    have h : scanStep [] (.dir n [.file ".git"]) = ([], [], [Msg.nameExtractFail]) := rfl
    rw [h]
    simp

/-- C10: when a directory-entry read fails mid-iteration, the walker behaves
exactly as if the listing ended at that error — entries after the erroneous
item are never examined and subdirectories among them are never pushed or
scanned (the whole scan result, records and console output alike, is
unchanged by dropping them); moreover the error itself is reported nowhere:
a directory whose listing starts with an entry-read error contributes no
records and no console output at all. -/
theorem C10_entry_error_truncates_silently :
    (∀ (p : DirPath) (n : String) (pre : List FsNode) (c : Nat)
        (post : List FsNode) (rest : List (DirPath × FsNode)),
        scanLoop ((p, .dir n (pre ++ .entryErr c :: post)) :: rest)
          = scanLoop ((p, .dir n (pre ++ [.entryErr c])) :: rest)) ∧
    (∀ (p : DirPath) (n : String) (c : Nat) (post : List FsNode),
        parse_directory p (.dir n (.entryErr c :: post)) = (.ok [], [])) := by
  constructor
  · intro p n pre c post rest
    rw [scanLoop_cons, scanLoop_cons, scanStep_truncate_at_err]
  · intro p n c post
    have h : scanStep p (.dir n (.entryErr c :: post)) = ([], [], []) := rfl
    simp [parse_directory, scanLoop_cons, h, scanLoop_nil]

/-! ### Clean trees, claims C2 and C3 -/

theorem cleanN_dir (n : String) (es : List FsNode) :
    cleanN (.dir n es) = es.all cleanN := by
  rw [cleanN, Bool.eq_iff_iff]
  simp [List.all_eq_true, List.mem_attach, Subtype.forall]

theorem cleanN_file (n : String) : cleanN (.file n) = true := by
  simp [cleanN]

theorem cleanN_dirFail (n : String) (c : Nat) :
    cleanN (.dirFail n c) = false := by
  simp [cleanN]

theorem cleanN_metaErr (n : String) : cleanN (.metaErr n) = false := by
  simp [cleanN]

theorem cleanN_entryErr (c : Nat) : cleanN (.entryErr c) = false := by
  simp [cleanN]

theorem countRepos_dir (n : String) (es : List FsNode) :
    countRepos (.dir n es)
      = (if hasGitEntry es then 1 else 0) + (es.map countRepos).sum := by
  rw [countRepos, List.attach_map_val es countRepos]

theorem countRepos_file (n : String) : countRepos (.file n) = 0 := by
  simp [countRepos]

theorem clean_all_not_err (es : List FsNode) (h : es.all cleanN = true) :
    es.all (fun e => !isErrEntry e) = true := by
  rw [List.all_eq_true] at h ⊢
  intro e he
  have hce := h e he
  cases e with
  | entryErr c => rw [cleanN_entryErr] at hce; exact absurd hce (by simp)
  | file n => simp [isErrEntry]
  | dir n cs => simp [isErrEntry]
  | dirFail n c => simp [isErrEntry]
  | metaErr n => simp [isErrEntry]

theorem entriesBeforeErr_all (es : List FsNode)
    (h : es.all (fun e => !isErrEntry e) = true) :
    entriesBeforeErr es = es := by
  induction es with
  | nil => rfl
  | cons e es ih =>
    simp only [List.all_cons, Bool.and_eq_true] at h
    rw [entriesBeforeErr_cons_named e es (by simpa using h.1),
      ih h.2]

theorem collectSubdirs_clean (es : List FsNode) (h : es.all cleanN = true) :
    collectSubdirs es = es.filter isDirNode := by
  induction es with
  | nil => rfl
  | cons e es ih =>
    simp only [List.all_cons, Bool.and_eq_true] at h
    cases e with
    | file n => simp [collectSubdirs, isDirNode, List.filter_cons, ih h.2]
    | dir n cs => simp [collectSubdirs, isDirNode, List.filter_cons, ih h.2]
    | dirFail n c => rw [cleanN_dirFail] at h; exact absurd h.1 (by simp)
    | metaErr n => rw [cleanN_metaErr] at h; exact absurd h.1 (by simp)
    | entryErr c => rw [cleanN_entryErr] at h; exact absurd h.1 (by simp)

theorem sum_countRepos_filter (es : List FsNode) (h : es.all cleanN = true) :
    ((es.filter isDirNode).map countRepos).sum = (es.map countRepos).sum := by
  induction es with
  | nil => rfl
  | cons e es ih =>
    simp only [List.all_cons, Bool.and_eq_true] at h
    cases e with
    | file n =>
      simp [isDirNode, List.filter_cons, countRepos_file, ih h.2]
    | dir n cs =>
      simp [isDirNode, List.filter_cons, ih h.2]
    | dirFail n c => rw [cleanN_dirFail] at h; exact absurd h.1 (by simp)
    | metaErr n => rw [cleanN_metaErr] at h; exact absurd h.1 (by simp)
    | entryErr c => rw [cleanN_entryErr] at h; exact absurd h.1 (by simp)

theorem fileStemPath_isSome (p : DirPath) (hp : p ≠ []) :
    ∃ nm, fileStemPath p = some nm := by
  rcases hl : p.getLast? with _ | nm
  · rw [List.getLast?_eq_none_iff] at hl
    exact absurd hl hp
  · exact ⟨fileStem nm, by simp [fileStemPath, hl]⟩

theorem scanStep_records_length_clean (p : DirPath) (n : String)
    (es : List FsNode) (hp : p ≠ []) (hc : es.all cleanN = true) :
    ((scanStep p (.dir n es)).2.1).length
      = if hasGitEntry es then 1 else 0 := by
  rcases fileStemPath_isSome p hp with ⟨nm, hnm⟩
  rcases hgit : hasGitEntry es with _ | _
  · have hv := checkEntries_notARepo es (clean_all_not_err es hc) hgit
    simp [scanStep, validate_repo, readDirChildren, hv]
  · have hv : checkEntries es = .ok () := by
      rw [checkEntries_ok_iff, entriesBeforeErr_all es (clean_all_not_err es hc),
        hgit]
    simp [scanStep, validate_repo, readDirChildren, hv, hnm]

theorem declNode_length : ∀ (p : DirPath) (t : FsNode),
    cleanN t = true → p ≠ [] → (declNode p t).length = countRepos t
  | p, .file n, _, _ => by
    simp [declNode, scanStep, validate_repo, readDirChildren, countRepos_file]
  | p, .dirFail n c, hc, _ => by
    rw [cleanN_dirFail] at hc; exact absurd hc (by simp)
  | p, .metaErr n, hc, _ => by
    rw [cleanN_metaErr] at hc; exact absurd hc (by simp)
  | p, .entryErr c, hc, _ => by
    rw [cleanN_entryErr] at hc; exact absurd hc (by simp)
  | p, .dir n es, hc, hp => by
    rw [cleanN_dir] at hc
    have hmap : (collectSubdirs es).map
          (List.length ∘ (fun c => declNode (p ++ [nodeName c]) c))
        = (collectSubdirs es).map countRepos := by
      apply List.map_congr_left
      intro c hcmem
      have hc1 : cleanN c = true :=
        List.all_eq_true.1 hc c (collectSubdirs_subset es c hcmem)
      exact declNode_length (p ++ [nodeName c]) c hc1 (by simp)
    rw [declNode, List.attach_map_val (collectSubdirs es)
        (fun c => declNode (p ++ [nodeName c]) c),
      List.length_append, List.length_flatten, List.map_map, hmap,
      collectSubdirs_clean es hc, sum_countRepos_filter es hc,
      scanStep_records_length_clean p n es hp hc, countRepos_dir]
termination_by p t => sizeOf t
decreasing_by
  have h1 := collectSubdirs_subset es c hcmem
  have h2 := List.sizeOf_lt_of_mem h1
  simp only [FsNode.dir.sizeOf_spec]
  omega

/-- C2: on an error-free tree scanned from a root path with a final
component, `parse_directory` returns exactly one record per repository in the
tree — a repository being a directory (the root included) with a direct child
entry named `.git` — nested repositories included, since descent never stops
at a repository. -/
theorem C2_scan_counts_all_repos (p : DirPath) (t : FsNode)
    (rs : List RepoData) (ms : List Msg) (hclean : cleanN t = true)
    (hp : p ≠ []) (h : parse_directory p t = (.ok rs, ms)) :
    rs.length = countRepos t := by
  have h0 : (parse_directory p t).1 = .ok rs := by rw [h]
  have h1 : (scanLoop [(p, t)]).1 = rs := by
    simpa [parse_directory] using h0
  have h2 := scanLoop_perm [(p, t)]
  rw [h1] at h2
  rw [h2.length_eq]
  simp only [List.map_cons, List.map_nil, List.flatten_cons, List.flatten_nil,
    List.append_nil]
  exact declNode_length p t hclean hp

/-- C2 witness: a repository nested inside another repository; the scan finds
both. -/
theorem C2_witness :
    ([RepoData.new "a" ["root", "a"],
      RepoData.new "inner" ["root", "a", "inner"]] : List RepoData).length
      = countRepos (.dir "root" [.dir "a" [.dir ".git" [],
          .dir "inner" [.dir ".git" []]]]) :=
  C2_scan_counts_all_repos ["root"]
    (.dir "root" [.dir "a" [.dir ".git" [], .dir "inner" [.dir ".git" []]]])
    [RepoData.new "a" ["root", "a"], RepoData.new "inner" ["root", "a", "inner"]]
    []
    (by simp [cleanN_dir, cleanN_file])
    (by simp)
    (by simp [parse_directory, scanLoop, scanStep, readDirChildren,
      collectSubdirs, isDirNode, nodeName, validate_repo, checkEntries,
      entryName, fileStemPath, fileStem, RepoData.new])

theorem scanStep_records_eq (p : DirPath) (t : FsNode) :
    (scanStep p t).2.1
      = match validate_repo t, fileStemPath p with
        | .ok _, some nm => [RepoData.new nm p]
        | _, _ => [] := by
  simp only [scanStep]
  cases validate_repo t <;> cases fileStemPath p <;> rfl

theorem scanStep_pushed_mem (p : DirPath) (t : FsNode) :
    ∀ w ∈ (scanStep p t).1, sizeOf w.2 < sizeOf t := by
  cases t with
  | dir n es =>
    intro w hw
    rw [show (scanStep p (FsNode.dir n es)).1
        = (collectSubdirs es).map (fun c => (p ++ [nodeName c], c)) from rfl] at hw
    rcases List.mem_map.1 hw with ⟨c, hcm, hwc⟩
    have h1 := List.sizeOf_lt_of_mem (collectSubdirs_subset es c hcm)
    have h2 : w.2 = c := by rw [← hwc]
    rw [h2]
    simp only [FsNode.dir.sizeOf_spec]
    omega
  | file n => intro w hw; simp [scanStep, readDirChildren] at hw
  | dirFail n c => intro w hw; simp [scanStep, readDirChildren] at hw
  | metaErr n => intro w hw; simp [scanStep, readDirChildren] at hw
  | entryErr c => intro w hw; simp [scanStep, readDirChildren] at hw

theorem declNode_mem_name : ∀ (p : DirPath) (t : FsNode),
    ∀ r ∈ declNode p t, r.path.getLast?.map fileStem = some r.name
  | p, t, r, hr => by
    rw [declNode_eq] at hr
    rcases List.mem_append.1 hr with h1 | h1
    · rw [scanStep_records_eq] at h1
      rcases hv : validate_repo t with e | u
      · rw [hv] at h1; simp at h1
      · rcases hs : fileStemPath p with _ | nm
        · rw [hv, hs] at h1; simp at h1
        · rw [hv, hs] at h1
          simp only [List.mem_singleton] at h1
          subst h1
          exact hs
    · rcases List.mem_flatten.1 h1 with ⟨s, hs, hrs⟩
      rcases List.mem_map.1 hs with ⟨w, hw, hws⟩
      rw [← hws] at hrs
      exact declNode_mem_name w.1 w.2 r hrs
termination_by p t => sizeOf t
decreasing_by
  exact scanStep_pushed_mem p t w hw

/-- C3 counterexample: scanning root/{a.b/.git} emits a record named `a` for
the repository directory `a.b` — `parse_directory` derives the name with
`Path::file_stem`, which truncates the directory's own name at its final
dot — so the emitted name is not the last path component. -/
theorem C3_counterexample :
    (parse_directory ["root"] (.dir "root" [.dir "a.b" [.file ".git"]])).1
      = .ok [RepoData.new "a" ["root", "a.b"]] ∧
    ("a" : String) ≠ "a.b" := by
  refine ⟨?_, by decide⟩
  simp [parse_directory, scanLoop, scanStep, readDirChildren, collectSubdirs,
    isDirNode, nodeName, validate_repo, checkEntries, entryName, fileStemPath,
    fileStem, RepoData.new]

/-- C3 (amended): every record emitted by `parse_directory` has as its name
the file stem of the last component of its path — the part of the
directory's own name before its final dot, the whole name when it contains
no dot, only a leading dot, or is `..` — which equals the last path
component whenever that component contains no truncating dot; in particular
scanning root/{a/.git, b/c/.git} yields exactly the records `a` and `c`
(not `b`) with paths root/a and root/b/c. -/
theorem C3_record_names :
    (∀ (p : DirPath) (t : FsNode) (rs : List RepoData) (ms : List Msg),
        parse_directory p t = (.ok rs, ms) →
          ∀ r ∈ rs, r.path.getLast?.map fileStem = some r.name) ∧
    (parse_directory ["root"]
        (.dir "root" [.dir "a" [.dir ".git" []],
          .dir "b" [.dir "c" [.dir ".git" []]]])
      = (.ok [RepoData.new "c" ["root", "b", "c"],
          RepoData.new "a" ["root", "a"]], [])) := by
  constructor
  · intro p t rs ms h r hr
    have h1 : (scanLoop [(p, t)]).1 = rs := by
      simpa [parse_directory] using congrArg Prod.fst h
    have h2 := scanLoop_perm [(p, t)]
    rw [h1] at h2
    have hr2 := h2.subset hr
    simp only [List.map_cons, List.map_nil, List.flatten_cons,
      List.flatten_nil, List.append_nil] at hr2
    exact declNode_mem_name p t r hr2
  · simp [parse_directory, scanLoop, scanStep, readDirChildren, collectSubdirs,
      isDirNode, nodeName, validate_repo, checkEntries, entryName,
      fileStemPath, fileStem, RepoData.new]

/-- C3 witness: the amended theorem applied to a concrete scan of
root/{x.y/.git}, specialised to its single emitted record. -/
theorem C3_witness :
    (["root", "x.y"] : DirPath).getLast?.map fileStem = some "x" :=
  C3_record_names.1 ["root"] (.dir "root" [.dir "x.y" [.file ".git"]])
    [RepoData.new "x" ["root", "x.y"]] []
    (by simp [parse_directory, scanLoop, scanStep, readDirChildren,
      collectSubdirs, isDirNode, nodeName, validate_repo, checkEntries,
      entryName, fileStemPath, fileStem, RepoData.new])
    (RepoData.new "x" ["root", "x.y"]) (by simp)

end GitFindr
